import Mathlib

/-! Shallow embedding of the markdown-inspector core (src/src/lib.rs).
    Strings are modelled as lists of characters, machine integers as Nat.
    Fallible operations (Rust slice indexing, which panics when out of
    range) are modelled with Option, the panic being none. -/

/-- Heading record of lib.rs lines 8-15: line_number is 1-indexed, level is
    1 to 6, text is the heading text without the hash prefix. -/
structure Heading where
  line_number : Nat
  level : Nat
  text : List Char
deriving DecidableEq

/-- Backtick character, written via its code point. -/
def backtick : Char := Char.ofNat 96

/-- Split a character list at every newline. The result has one more piece
    than there are newlines, so the empty input gives one empty piece. -/
def splitNL : List Char → List (List Char)
  | [] => [[]]
  | c :: cs =>
    if c = '\n' then [] :: splitNL cs
    else
      match splitNL cs with
      | [] => [[c]]
      | l :: ls => (c :: l) :: ls

/-- Drop a single trailing carriage return, if present. -/
def stripTrailingCR : List Char → List Char
  | [] => []
  | c :: cs =>
    match cs with
    | [] => if c = '\r' then [] else [c]
    | _ :: _ => c :: stripTrailingCR cs

/-- Normalize the pieces of splitNL the way Rust str::lines does: every
    piece except the last was terminated by a newline and loses one
    trailing carriage return; a final empty piece (from a trailing
    newline) is dropped. -/
def fixLines : List (List Char) → List (List Char)
  | [] => []
  | l :: ls =>
    match ls with
    | [] => if l = [] then [] else [l]
    | _ :: _ => stripTrailingCR l :: fixLines ls

/-- Rust str::lines on character lists: terminators are a newline or a
    carriage return followed by a newline, the final terminator optional. -/
def rustLines (cs : List Char) : List (List Char) := fixLines (splitNL cs)

/-- Join a list of lines with a single newline, as Vec::join does in
    lib.rs lines 116 and 167. -/
def joinNL : List (List Char) → List Char
  | [] => []
  | l :: ls =>
    match ls with
    | [] => l
    | _ :: _ => l ++ '\n' :: joinNL ls

/-- Fence marker test of lib.rs line 30: the trimmed line starts with
    three backticks or three tildes. -/
def isFenceLine (t : List Char) : Bool :=
  match t with
  | c1 :: c2 :: c3 :: _ =>
    (c1 = backtick && c2 = backtick && c3 = backtick) ||
    (c1 = '~' && c2 = '~' && c3 = '~')
  | _ => false

/-- Hash-counting loop of lib.rs lines 41-50: level starts at 1 after the
    first hash was stripped; each further hash increments level and the
    loop stops as soon as level reaches 6, leaving the rest of the line. -/
def hashCount : Nat → List Char → Nat × List Char
  | level, [] => (level, [])
  | level, c :: cs =>
    if c = '#' then
      if 6 ≤ level + 1 then (level + 1, cs) else hashCount (level + 1) cs
    else (level, c :: cs)

/-- Rust str::trim on a character list, using the whitespace predicate of
    the embedding (ASCII whitespace; the source uses Unicode whitespace,
    which agrees on all ASCII input). -/
def rustTrim (l : List Char) : List Char :=
  ((l.dropWhile Char.isWhitespace).reverse.dropWhile Char.isWhitespace).reverse

/-- Heading recognizer of lib.rs lines 40-59, applied to the already
    trimmed line: strip one hash, count further hashes capping the level
    at 6, require a single space immediately after the counted hashes,
    and take the trimmed remainder as the text. -/
def headingOfTrimmed (ln : Nat) (t : List Char) : Option Heading :=
  match t with
  | [] => none
  | c :: rest =>
    if c = '#' then
      let lr := hashCount 1 rest
      match lr.2 with
      | [] => none
      | c2 :: text => if c2 = ' ' then some ⟨ln, lr.1, rustTrim text⟩ else none
    else none

/-- Scanner loop of parse_headings, lib.rs lines 21-64: walk the lines
    with a 1-based counter and the in_code_block flag; a fence line
    toggles the flag and is skipped, lines inside a code block are
    skipped, and otherwise the heading recognizer runs on the trimmed
    line. -/
def parseHeadingsGo : List (List Char) → Nat → Bool → List Heading
  | [], _, _ => []
  | line :: rest, n, inCode =>
    if isFenceLine (line.dropWhile Char.isWhitespace) then
      parseHeadingsGo rest (n + 1) (!inCode)
    else if inCode then
      parseHeadingsGo rest (n + 1) inCode
    else
      match headingOfTrimmed n (line.dropWhile Char.isWhitespace) with
      | some h => h :: parseHeadingsGo rest (n + 1) inCode
      | none => parseHeadingsGo rest (n + 1) inCode

/-- parse_headings of lib.rs lines 21-64. -/
def parse_headings (content : List Char) : List Heading :=
  parseHeadingsGo (rustLines content) 1 false

/-- Fence state after scanning a prefix of the line list starting from
    state b: each fence line toggles the state, as in lib.rs lines 29-33. -/
def fenceAfter (b : Bool) (ls : List (List Char)) : Bool :=
  ls.foldl (fun st l => if isFenceLine (l.dropWhile Char.isWhitespace) then !st else st) b

/-- Rust usize::from_str as used in lib.rs line 74: an optional plus sign,
    then one or more ASCII digits, value below 2 to the 64th (usize on the
    64-bit targets the crate builds for); anything else fails. -/
def parseUsize (s : List Char) : Option Nat :=
  let digits := match s with
    | '+' :: rest => rest
    | _ => s
  if digits ≠ [] ∧ digits.all Char.isDigit then
    let n := digits.foldl (fun acc c => acc * 10 + (c.toNat - 48)) 0
    if n < 2 ^ 64 then some n else none
  else none

/-- Substring test: Rust str::contains of lib.rs line 87 on character
    lists; the needle must appear as a contiguous run in the haystack. -/
def containsSeq (hay needle : List Char) : Bool :=
  match hay with
  | [] => decide (needle = [])
  | c :: t => decide (needle = (c :: t).take needle.length) || containsSeq t needle

/-- find_section of lib.rs lines 72-88: numeric queries look up the line
    number and return immediately; otherwise exact text match, then
    case-insensitive substring match (Char.toLower models the ASCII part
    of Rust to_lowercase, which the spec allows). -/
def find_section (headings : List Heading) (sec : List Char) : Option Heading :=
  match parseUsize sec with
  | some line_num => headings.find? (fun h => decide (h.line_number = line_num))
  | none =>
    match headings.find? (fun h => decide (h.text = sec)) with
    | some h => some h
    | none =>
      headings.find? (fun h => containsSeq (h.text.map Char.toLower) (sec.map Char.toLower))

/-- get_section_range of lib.rs lines 94-105: start is the line number of
    the heading; the end is the line number of the first listed heading
    strictly after start whose level is at most the level of the heading. -/
def get_section_range (headings : List Heading) (heading : Heading) : Nat × Option Nat :=
  (heading.line_number,
    (headings.find? (fun h =>
      decide (heading.line_number < h.line_number ∧ h.level ≤ heading.level))).map
      Heading.line_number)

/-- get_subsections of lib.rs lines 126-138. -/
def get_subsections (headings : List Heading) (start : Nat) (stop : Option Nat)
    (max_depth : Nat) : List Heading :=
  headings.filter (fun h =>
    decide (start ≤ h.line_number) && stop.all (fun e => decide (h.line_number < e)) &&
    decide (h.level ≤ max_depth))

/-- get_first_subsection of lib.rs lines 141-146: the first listed heading
    strictly after the given one with a strictly deeper level. -/
def get_first_subsection (headings : List Heading) (heading : Heading) : Option Heading :=
  headings.find? (fun h =>
    decide (heading.line_number < h.line_number ∧ heading.level < h.level))

/-- End index of the slice taken by extract_section, lib.rs line 114:
    the saturating predecessor of the end line when present, otherwise
    the number of lines. -/
def sliceEnd (numLines : Nat) (stop : Option Nat) : Nat :=
  match stop with
  | some e => e - 1
  | none => numLines

/-- End index of the slice taken by extract_section_intro, lib.rs lines
    162-165: the saturating predecessor of the first-subsection line if
    present, else of the section end if present, else the line count. -/
def introEnd (numLines : Nat) (fs : Option Heading) (se : Option Nat) : Nat :=
  match fs with
  | some s => s.line_number - 1
  | none =>
    match se with
    | some e => e - 1
    | none => numLines

/-- extract_section of lib.rs lines 111-117. The Rust body indexes
    lines[start_idx..end_idx], which panics unless start_idx is at most
    end_idx and end_idx is at most the line count; the panic is modelled
    as none. In range, the slice is joined with single newlines. -/
def extract_section (content : List Char) (start : Nat) (stop : Option Nat) :
    Option (List Char) :=
  if start - 1 ≤ sliceEnd (rustLines content).length stop ∧
      sliceEnd (rustLines content).length stop ≤ (rustLines content).length then
    some (joinNL (((rustLines content).drop (start - 1)).take
      (sliceEnd (rustLines content).length stop - (start - 1))))
  else none

/-- extract_section_intro of lib.rs lines 154-168, with the same panic
    model for the slice indexing as extract_section. -/
def extract_section_intro (content : List Char) (heading : Heading)
    (first_subsection : Option Heading) (section_end : Option Nat) :
    Option (List Char) :=
  if heading.line_number - 1 ≤ introEnd (rustLines content).length first_subsection section_end ∧
      introEnd (rustLines content).length first_subsection section_end ≤
        (rustLines content).length then
    some (joinNL (((rustLines content).drop (heading.line_number - 1)).take
      (introEnd (rustLines content).length first_subsection section_end -
        (heading.line_number - 1))))
  else none

/-! Helper lemmas about the line splitter and joiner. -/

theorem splitNL_ne_nil (cs : List Char) : splitNL cs ≠ [] := by
  induction cs with
  | nil => simp [splitNL]
  | cons c cs ih =>
    simp only [splitNL]
    split
    · simp
    · split
      · simp
      · simp

theorem mem_splitNL_noNL (cs : List Char) (l : List Char) (hm : l ∈ splitNL cs) : '\n' ∉ l := by
  induction cs generalizing l with
  | nil =>
    simp [splitNL] at hm
    simp [hm]
  | cons c cs ih =>
    simp only [splitNL] at hm
    by_cases hc : c = '\n'
    · rw [if_pos hc] at hm
      rcases List.mem_cons.mp hm with h1 | h1
      · simp [h1]
      · exact ih l h1
    · rw [if_neg hc] at hm
      rcases hsp : splitNL cs with _ | ⟨p, ps⟩
      · exact absurd hsp (splitNL_ne_nil cs)
      · rw [hsp] at hm
        rcases List.mem_cons.mp hm with h1 | h1
        · subst h1
          intro hnl
          rcases List.mem_cons.mp hnl with h2 | h2
          · exact hc h2.symm
          · exact ih p (by rw [hsp]; exact List.mem_cons_self p ps) h2
        · exact ih l (by rw [hsp]; exact List.mem_cons.mpr (Or.inr h1))

theorem splitNL_single (l : List Char) (h : '\n' ∉ l) : splitNL l = [l] := by
  induction l with
  | nil => rfl
  | cons c cs ih =>
    have hc : ¬(c = '\n') := fun hh => h (hh ▸ List.mem_cons_self c cs)
    have hcs : '\n' ∉ cs := fun hh => h (List.mem_cons.mpr (Or.inr hh))
    simp only [splitNL, if_neg hc, ih hcs]

theorem splitNL_append (l rest : List Char) (h : '\n' ∉ l) :
    splitNL (l ++ '\n' :: rest) = l :: splitNL rest := by
  induction l with
  | nil => simp [splitNL]
  | cons c cs ih =>
    have hc : ¬(c = '\n') := fun hh => h (hh ▸ List.mem_cons_self c cs)
    have hcs : '\n' ∉ cs := fun hh => h (List.mem_cons.mpr (Or.inr hh))
    simp only [List.cons_append, splitNL, if_neg hc, List.append_eq]
    rw [ih hcs]

theorem joinNL_cons_cons (l l2 : List Char) (ls : List (List Char)) :
    joinNL (l :: l2 :: ls) = l ++ '\n' :: joinNL (l2 :: ls) := rfl

theorem splitNL_joinNL (ls : List (List Char)) (hls : ∀ l ∈ ls, '\n' ∉ l) (hne : ls ≠ []) :
    splitNL (joinNL ls) = ls := by
  induction ls with
  | nil => exact absurd rfl hne
  | cons l ls ih =>
    cases ls with
    | nil => exact splitNL_single l (hls l (List.mem_cons_self l []))
    | cons l2 ls2 =>
      rw [joinNL_cons_cons]
      rw [splitNL_append _ _ (hls l (List.mem_cons_self _ _))]
      rw [ih (fun x hx => hls x (List.mem_cons.mpr (Or.inr hx))) (by simp)]

theorem mem_stripTrailingCR (l : List Char) (a : Char) (hm : a ∈ stripTrailingCR l) : a ∈ l := by
  induction l with
  | nil => simpa [stripTrailingCR] using hm
  | cons c cs ih =>
    cases cs with
    | nil =>
      simp only [stripTrailingCR] at hm
      split at hm
      · simp at hm
      · simpa using hm
    | cons d ds =>
      simp only [stripTrailingCR] at hm
      rcases List.mem_cons.mp hm with h1 | h1
      · simp [h1]
      · exact List.mem_cons.mpr (Or.inr (ih h1))

theorem mem_fixLines (ps : List (List Char)) (l : List Char) (hm : l ∈ fixLines ps) :
    ∃ p ∈ ps, l = stripTrailingCR p ∨ l = p := by
  induction ps with
  | nil => simp [fixLines] at hm
  | cons p ps ih =>
    cases ps with
    | nil =>
      simp only [fixLines] at hm
      split at hm
      · simp at hm
      · exact ⟨p, List.mem_cons_self _ _, Or.inr (by simpa using hm)⟩
    | cons q qs =>
      simp only [fixLines] at hm
      rcases List.mem_cons.mp hm with h1 | h1
      · exact ⟨p, List.mem_cons_self _ _, Or.inl h1⟩
      · rcases ih h1 with ⟨r, hr, hlr⟩
        exact ⟨r, List.mem_cons.mpr (Or.inr hr), hlr⟩

theorem mem_rustLines_noNL (cs l : List Char) (hm : l ∈ rustLines cs) : '\n' ∉ l := by
  rcases mem_fixLines _ _ hm with ⟨p, hp, hlp⟩
  have hpn : '\n' ∉ p := mem_splitNL_noNL cs p hp
  rcases hlp with h1 | h1
  · subst h1; exact fun hx => hpn (mem_stripTrailingCR _ _ hx)
  · subst h1; exact hpn

theorem rustLines_single (cs : List Char) (h : '\n' ∉ cs) (hne : cs ≠ []) :
    rustLines cs = [cs] := by
  rw [rustLines, splitNL_single cs h]
  cases cs with
  | nil => exact absurd rfl hne
  | cons c cs2 => rfl

/-! Helper lemmas about the heading recognizer and the scanner. -/

theorem hashCount_bounds (cs : List Char) : ∀ level, 1 ≤ level → level ≤ 5 →
    1 ≤ (hashCount level cs).1 ∧ (hashCount level cs).1 ≤ 6 := by
  induction cs with
  | nil => intro level h1 h5; simp only [hashCount]; omega
  | cons c cs ih =>
    intro level h1 h5
    simp only [hashCount]
    by_cases hc : c = '#'
    · rw [if_pos hc]
      by_cases h6 : 6 ≤ level + 1
      · rw [if_pos h6]; simp; omega
      · rw [if_neg h6]; exact ih (level + 1) (by omega) (by omega)
    · rw [if_neg hc]; simp; omega

theorem headingOfTrimmed_some (n : Nat) (t : List Char) (h : Heading)
    (hh : headingOfTrimmed n t = some h) :
    h.line_number = n ∧ 1 ≤ h.level ∧ h.level ≤ 6 := by
  cases t with
  | nil => simp [headingOfTrimmed] at hh
  | cons c rest =>
    simp only [headingOfTrimmed] at hh
    split at hh
    · split at hh
      · simp at hh
      · split at hh
        · have hb := hashCount_bounds rest 1 (by omega) (by omega)
          injection hh with hh2
          subst hh2
          exact ⟨rfl, hb⟩
        · simp at hh
    · simp at hh

theorem fenceAfter_cons (b : Bool) (l : List Char) (ls : List (List Char)) :
    fenceAfter b (l :: ls) =
      fenceAfter (if isFenceLine (l.dropWhile Char.isWhitespace) then !b else b) ls := rfl

theorem mem_parseHeadingsGo (ls : List (List Char)) (n : Nat) (b : Bool) (h : Heading)
    (hm : h ∈ parseHeadingsGo ls n b) :
    ∃ i, i < ls.length ∧
      h.line_number = n + i ∧
      fenceAfter b (ls.take i) = false ∧
      isFenceLine ((ls.getD i []).dropWhile Char.isWhitespace) = false ∧
      headingOfTrimmed (n + i) ((ls.getD i []).dropWhile Char.isWhitespace) = some h := by
  induction ls generalizing n b with
  | nil => simp [parseHeadingsGo] at hm
  | cons line ls ih =>
    simp only [parseHeadingsGo] at hm
    by_cases hf : isFenceLine (line.dropWhile Char.isWhitespace) = true
    · rw [if_pos hf] at hm
      rcases ih (n + 1) (!b) hm with ⟨i, hi, h1, h2, h3, h4⟩
      refine ⟨i + 1, by simpa using Nat.succ_lt_succ hi, by omega, ?_, ?_, ?_⟩
      · rw [List.take_succ_cons, fenceAfter_cons, if_pos hf]; exact h2
      · simpa using h3
      · have : n + (i + 1) = n + 1 + i := by omega
        rw [this]; simpa using h4
    · have hfx : isFenceLine (line.dropWhile Char.isWhitespace) = false := by
        revert hf; cases isFenceLine (line.dropWhile Char.isWhitespace) <;> simp
      rw [if_neg hf] at hm
      cases b with
      | true =>
        rw [if_pos rfl] at hm
        rcases ih (n + 1) true hm with ⟨i, hi, h1, h2, h3, h4⟩
        refine ⟨i + 1, by simpa using Nat.succ_lt_succ hi, by omega, ?_, ?_, ?_⟩
        · rw [List.take_succ_cons, fenceAfter_cons, if_neg hf]; exact h2
        · simpa using h3
        · have : n + (i + 1) = n + 1 + i := by omega
          rw [this]; simpa using h4
      | false =>
        simp only [if_neg (by simp : ¬(false = true))] at hm
        split at hm
        next h0 hht =>
          rcases List.mem_cons.mp hm with h1 | h1
          · subst h1
            refine ⟨0, by simp, ?_, by rfl, by simpa using hfx, ?_⟩
            · have := headingOfTrimmed_some n _ _ hht
              omega
            · simpa using hht
          · rcases ih (n + 1) false h1 with ⟨i, hi, h1, h2, h3, h4⟩
            refine ⟨i + 1, by simpa using Nat.succ_lt_succ hi, by omega, ?_, ?_, ?_⟩
            · rw [List.take_succ_cons, fenceAfter_cons, if_neg hf]; exact h2
            · simpa using h3
            · have : n + (i + 1) = n + 1 + i := by omega
              rw [this]; simpa using h4
        next hht =>
          rcases ih (n + 1) false hm with ⟨i, hi, h1, h2, h3, h4⟩
          refine ⟨i + 1, by simpa using Nat.succ_lt_succ hi, by omega, ?_, ?_, ?_⟩
          · rw [List.take_succ_cons, fenceAfter_cons, if_neg hf]; exact h2
          · simpa using h3
          · have : n + (i + 1) = n + 1 + i := by omega
            rw [this]; simpa using h4

/-! Helper lemmas about find? on heading lists sorted by line number. -/

theorem find?_min_line (p : Heading → Bool) (hs : List Heading)
    (hp : List.Pairwise (fun a b => a.line_number < b.line_number) hs)
    (h0 : Heading) (hf : hs.find? p = some h0) :
    ∀ h ∈ hs, p h = true → h0.line_number ≤ h.line_number := by
  induction hs with
  | nil => simp [List.find?] at hf
  | cons a t ih =>
    rw [List.pairwise_cons] at hp
    simp only [List.find?] at hf
    rcases hab : p a with _ | _
    · rw [hab] at hf
      intro h hm hph
      rcases List.mem_cons.mp hm with h1 | h1
      · subst h1; rw [hph] at hab; cases hab
      · exact ih hp.2 hf h h1 hph
    · rw [hab] at hf
      injection hf with hf2
      subst hf2
      intro h hm hph
      rcases List.mem_cons.mp hm with h1 | h1
      · subst h1; exact Nat.le_refl _
      · exact Nat.le_of_lt (hp.1 h h1)

/-! Claim C9. -/

/-- C9: for every input text, every heading produced by parse_headings has
    a level in the interval from 1 to 6. -/
theorem c9_level_bounds (c : List Char) (h : Heading) (hm : h ∈ parse_headings c) :
    1 ≤ h.level ∧ h.level ≤ 6 := by
  rcases mem_parseHeadingsGo _ _ _ _ hm with ⟨i, hi, h1, h2, h3, h4⟩
  exact (headingOfTrimmed_some _ _ _ h4).2

/-- C9 witness: the level-2 heading parsed from a two-hash line satisfies
    the bounds. -/
theorem c9_level_bounds_witness :
    1 ≤ (Heading.mk 1 2 ['b']).level ∧ (Heading.mk 1 2 ['b']).level ≤ 6 :=
  c9_level_bounds ['#', '#', ' ', 'b'] ⟨1, 2, ['b']⟩ (by decide)

/-! Claim C5. -/

/-- C5: every heading emitted by parse_headings sits on a line whose fence
    state (the toggle over all earlier fence lines, starting outside a
    fence) is false and which is itself not a fence line; hence no heading
    is emitted for a fence line, for a line between a fence opener and the
    next fence line, or for any line after an unclosed opener. -/
theorem c5_fence_suppression (c : List Char) (h : Heading) (hm : h ∈ parse_headings c) :
    ∃ i, i < (rustLines c).length ∧
      h.line_number = i + 1 ∧
      fenceAfter false ((rustLines c).take i) = false ∧
      isFenceLine (((rustLines c).getD i []).dropWhile Char.isWhitespace) = false := by
  rcases mem_parseHeadingsGo _ _ _ _ hm with ⟨i, hi, h1, h2, h3, h4⟩
  exact ⟨i, hi, by omega, h2, h3⟩

/-- C5 witness: the single heading of a one-line document lies on an
    unsuppressed line. -/
theorem c5_fence_suppression_witness :
    ∃ i, i < 1 ∧ (1 : Nat) = i + 1 ∧
      fenceAfter false ([[' ', '#', ' ', 'a']].take i) = false ∧
      isFenceLine (([[' ', '#', ' ', 'a']].getD i []).dropWhile Char.isWhitespace) = false :=
  c5_fence_suppression [' ', '#', ' ', 'a'] ⟨1, 1, ['a']⟩ (by decide)

/-! Claim C3. -/

/-- C3 counterexample: the line of seven hashes, a space and text — which
    the claim says yields a level-6 heading with the extra hash absorbed
    into the text side — in fact yields no heading at all: the recognizer
    caps the count after consuming six hashes and then requires the space
    immediately, but finds the seventh hash. -/
theorem c3_counterexample :
    parse_headings ['#', '#', '#', '#', '#', '#', '#', ' ', 'x'] = [] := by decide

/-- C3 amended: a line starting with seven hashes emits no heading,
    whatever follows; a line of exactly six hashes followed by the
    required space emits a heading of level exactly 6 whose text is the
    trimmed remainder. -/
theorem c3_seven_hashes_amended (rest : List Char) (hnl : '\n' ∉ rest) :
    parse_headings (['#', '#', '#', '#', '#', '#', '#'] ++ rest) = [] ∧
    ∀ n, headingOfTrimmed n (['#', '#', '#', '#', '#', '#', ' '] ++ rest) =
      some ⟨n, 6, rustTrim rest⟩ := by
  constructor
  · have hne : (['#', '#', '#', '#', '#', '#', '#'] ++ rest) ≠ [] := by simp
    have hn2 : '\n' ∉ (['#', '#', '#', '#', '#', '#', '#'] ++ rest) := by
      intro hx
      rcases List.mem_append.mp hx with h1 | h1
      · exact absurd h1 (by decide)
      · exact hnl h1
    rw [parse_headings, rustLines_single _ hn2 hne]
    rfl
  · intro n
    rfl

/-- C3 amended witness at a concrete remainder. -/
theorem c3_seven_hashes_amended_witness :
    parse_headings (['#', '#', '#', '#', '#', '#', '#'] ++ [' ', 'x']) = [] ∧
    headingOfTrimmed 1 (['#', '#', '#', '#', '#', '#', ' '] ++ [' ', 'x']) =
      some ⟨1, 6, rustTrim [' ', 'x']⟩ :=
  ⟨(c3_seven_hashes_amended [' ', 'x'] (by decide)).1,
   (c3_seven_hashes_amended [' ', 'x'] (by decide)).2 1⟩

/-! Claim C10. -/

theorem parseHeadingsGo_fence (l : List Char) (ls : List (List Char)) (n : Nat) (b : Bool)
    (hl : isFenceLine (l.dropWhile Char.isWhitespace) = true) :
    parseHeadingsGo (l :: ls) n b = parseHeadingsGo ls (n + 1) (!b) := by
  simp only [parseHeadingsGo]
  rw [if_pos hl]

theorem parseHeadingsGo_skip (l : List Char) (ls : List (List Char)) (n : Nat)
    (hl : isFenceLine (l.dropWhile Char.isWhitespace) = false) :
    parseHeadingsGo (l :: ls) n true = parseHeadingsGo ls (n + 1) true := by
  simp only [parseHeadingsGo]
  rw [if_neg (by simp [hl])]
  simp

theorem parseHeadingsGo_inFence (cl : List Char) (rest : List (List Char))
    (hc : isFenceLine (cl.dropWhile Char.isWhitespace) = true) :
    ∀ (body : List (List Char)) (n : Nat),
      (∀ l ∈ body, isFenceLine (l.dropWhile Char.isWhitespace) = false) →
      parseHeadingsGo (body ++ cl :: rest) n true =
        parseHeadingsGo rest (n + body.length + 1) false := by
  intro body
  induction body with
  | nil =>
    intro n hb
    rw [List.nil_append, parseHeadingsGo_fence cl rest n true hc]
    simp
  | cons l body ih =>
    intro n hb
    have hl : isFenceLine (l.dropWhile Char.isWhitespace) = false :=
      hb l (List.mem_cons_self _ _)
    rw [List.cons_append, parseHeadingsGo_skip l _ n hl]
    rw [ih (n + 1) (fun x hx => hb x (List.mem_cons.mpr (Or.inr hx)))]
    have he : n + 1 + body.length + 1 = n + (l :: body).length + 1 := by
      simp only [List.length_cons]
      omega
    rw [he]

/-- C10: the scanner does not distinguish the kind of fence marker: any
    fence line (three backticks or three tildes after trimming) opens,
    the next fence line of either kind closes, every line in between is
    suppressed, and scanning then resumes outside a fence after the
    closer. -/
theorem c10_fence_kind_agnostic (o cl : List Char) (body rest : List (List Char)) (n : Nat)
    (ho : isFenceLine (o.dropWhile Char.isWhitespace) = true)
    (hc : isFenceLine (cl.dropWhile Char.isWhitespace) = true)
    (hbody : ∀ l ∈ body, isFenceLine (l.dropWhile Char.isWhitespace) = false) :
    parseHeadingsGo (o :: (body ++ cl :: rest)) n false =
      parseHeadingsGo rest (n + body.length + 2) false := by
  rw [parseHeadingsGo_fence o _ n false ho]
  simp only [Bool.not_false]
  rw [parseHeadingsGo_inFence cl rest hc body (n + 1) hbody]
  have he : n + 1 + body.length + 1 = n + body.length + 2 := by omega
  rw [he]

/-- C10 witness: a backtick opener closed by a tilde line, with a heading
    inside suppressed and a heading after the closer recognized. -/
theorem c10_fence_kind_agnostic_witness :
    parseHeadingsGo
      ([backtick, backtick, backtick] :: ([['#', ' ', 'x']] ++ ['~', '~', '~'] :: [['#', ' ', 'y']]))
      1 false =
      parseHeadingsGo [['#', ' ', 'y']] 4 false :=
  c10_fence_kind_agnostic [backtick, backtick, backtick] ['~', '~', '~']
    [['#', ' ', 'x']] [['#', ' ', 'y']] 1 (by decide) (by decide) (by decide)

/-! Claim C4. -/

/-- C4: on a heading list with strictly increasing line numbers, the range
    of a heading H starts at its line number; the end, when present, is a
    candidate (the line of a listed heading after H with level at most
    H.level) and is the smallest such line; the end is absent exactly when
    no candidate exists; and every heading strictly between start and end
    is strictly deeper than H. -/
theorem c4_section_range (hs : List Heading) (H : Heading)
    (hsorted : List.Pairwise (fun a b => a.line_number < b.line_number) hs)
    (hmem : H ∈ hs) :
    (get_section_range hs H).1 = H.line_number ∧
    (∀ m, (get_section_range hs H).2 = some m →
      (∃ h2, h2 ∈ hs ∧ h2.line_number = m ∧ h2.level ≤ H.level ∧ H.line_number < m) ∧
      (∀ h2 ∈ hs, H.line_number < h2.line_number → h2.level ≤ H.level → m ≤ h2.line_number)) ∧
    ((get_section_range hs H).2 = none ↔
      ∀ h2 ∈ hs, H.line_number < h2.line_number → H.level < h2.level) ∧
    (∀ m, (get_section_range hs H).2 = some m →
      ∀ h2 ∈ hs, H.line_number < h2.line_number → h2.line_number < m → H.level < h2.level) := by
  refine ⟨rfl, ?_, ?_, ?_⟩
  · intro m hm
    simp only [get_section_range] at hm
    rcases Option.map_eq_some'.mp hm with ⟨h2, hf, hline⟩
    have hp2 : H.line_number < h2.line_number ∧ h2.level ≤ H.level := by
      simpa using List.find?_some hf
    constructor
    · exact ⟨h2, List.mem_of_find?_eq_some hf, hline, hp2.2, hline ▸ hp2.1⟩
    · intro h3 hm3 hl3 hlev3
      have hmin := find?_min_line _ hs hsorted h2 hf h3 hm3 (by simp [hl3, hlev3])
      omega
  · simp only [get_section_range, Option.map_eq_none']
    rw [List.find?_eq_none]
    constructor
    · intro hnone h2 hm2 hlt
      by_contra hle
      exact hnone h2 hm2 (by simp [hlt]; omega)
    · intro hall h2 hm2
      simp only [decide_eq_true_eq, not_and, not_le]
      intro hlt
      exact hall h2 hm2 hlt
  · intro m hm h2 hm2 hlt hltm
    by_contra hle
    push_neg at hle
    simp only [get_section_range] at hm
    rcases Option.map_eq_some'.mp hm with ⟨h0, hf, hline⟩
    have hmin := find?_min_line _ hs hsorted h0 hf h2 hm2 (by simp [hlt, hle])
    omega

/-- C4 witness at the range-computation scenario of the spec: the middle
    level-2 heading of three starts at line 5, and the end is absent
    exactly when all later headings are deeper, which is false here. -/
theorem c4_section_range_witness :
    (get_section_range [Heading.mk 1 1 ['T'], Heading.mk 5 2 ['A'], Heading.mk 10 2 ['B']]
      (Heading.mk 5 2 ['A'])).1 = (Heading.mk 5 2 ['A']).line_number ∧
    ((get_section_range [Heading.mk 1 1 ['T'], Heading.mk 5 2 ['A'], Heading.mk 10 2 ['B']]
      (Heading.mk 5 2 ['A'])).2 = none ↔
      ∀ h2 ∈ [Heading.mk 1 1 ['T'], Heading.mk 5 2 ['A'], Heading.mk 10 2 ['B']],
        (Heading.mk 5 2 ['A']).line_number < h2.line_number →
        (Heading.mk 5 2 ['A']).level < h2.level) :=
  ⟨(c4_section_range _ _ (by decide) (by decide)).1,
   (c4_section_range _ _ (by decide) (by decide)).2.2.1⟩

/-! Claim C6. -/

/-- C6: when the query parses as a non-negative integer n, find_section is
    exactly the line-number lookup: it equals find? on line_number = n,
    returns none when no heading is on line n, and any result is a listed
    heading on line n — the text rules are never consulted, whatever the
    heading texts are. -/
theorem c6_numeric_precedence (hs : List Heading) (q : List Char) (n : Nat)
    (hq : parseUsize q = some n) :
    find_section hs q = hs.find? (fun h => decide (h.line_number = n)) ∧
    ((∀ h ∈ hs, h.line_number ≠ n) → find_section hs q = none) ∧
    (∀ h0, find_section hs q = some h0 → h0 ∈ hs ∧ h0.line_number = n) ∧
    ((∃ h ∈ hs, h.line_number = n) →
      ∃ h0, find_section hs q = some h0 ∧ h0.line_number = n) := by
  have hfs : find_section hs q = hs.find? (fun h => decide (h.line_number = n)) := by
    simp only [find_section]
    rw [hq]
  refine ⟨hfs, ?_, ?_, ?_⟩
  · intro hall
    rw [hfs, List.find?_eq_none]
    intro h hm
    simp only [decide_eq_true_eq]
    exact hall h hm
  · intro h0 h0f
    rw [hfs] at h0f
    exact ⟨List.mem_of_find?_eq_some h0f, by simpa using List.find?_some h0f⟩
  · rintro ⟨h, hm, hline⟩
    rcases hff : hs.find? (fun h => decide (h.line_number = n)) with _ | h0
    · rw [List.find?_eq_none] at hff
      exact absurd (by simpa using hline) (hff h hm)
    · exact ⟨h0, by rw [hfs, hff], by simpa using List.find?_some hff⟩

/-- C6 witness: the query of one digit five returns the heading on line 5
    even though another heading has the text five. -/
theorem c6_numeric_precedence_witness :
    find_section [Heading.mk 3 1 ['5'], Heading.mk 5 1 ['x']] ['5'] =
      List.find? (fun h => decide (h.line_number = 5))
        [Heading.mk 3 1 ['5'], Heading.mk 5 1 ['x']] ∧
    ∃ h0, find_section [Heading.mk 3 1 ['5'], Heading.mk 5 1 ['x']] ['5'] = some h0 ∧
      h0.line_number = 5 :=
  ⟨(c6_numeric_precedence _ _ 5 (by decide)).1,
   (c6_numeric_precedence _ _ 5 (by decide)).2.2.2 ⟨Heading.mk 5 1 ['x'], by decide, rfl⟩⟩

/-! Claim C8. -/

/-- C8 counterexample: with strictly increasing lines and H the level-2
    heading on line 1, the level-1 heading on line 2 ends the section at
    line 2, yet the first later deeper heading is on line 3, outside the
    range: get_first_subsection does not return a heading inside the
    computed range, refuting the claim as stated. -/
theorem c8_counterexample :
    List.Pairwise (fun a b => a.line_number < b.line_number)
      [Heading.mk 1 2 ['H'], Heading.mk 2 1 ['A'], Heading.mk 3 3 ['B']] ∧
    Heading.mk 1 2 ['H'] ∈
      [Heading.mk 1 2 ['H'], Heading.mk 2 1 ['A'], Heading.mk 3 3 ['B']] ∧
    get_first_subsection [Heading.mk 1 2 ['H'], Heading.mk 2 1 ['A'], Heading.mk 3 3 ['B']]
      (Heading.mk 1 2 ['H']) = some (Heading.mk 3 3 ['B']) ∧
    (get_section_range [Heading.mk 1 2 ['H'], Heading.mk 2 1 ['A'], Heading.mk 3 3 ['B']]
      (Heading.mk 1 2 ['H'])).2 = some 2 ∧
    ¬((Heading.mk 3 3 ['B']).line_number < 2) := by
  refine ⟨?_, by decide, by decide, by decide, by decide⟩
  simp [List.pairwise_cons]

/-- C8 amended: when some listed heading D lies strictly inside the range
    of H (after H and before the present end m) with level strictly deeper
    than H, then get_first_subsection returns a heading S after H, deeper
    than H, and strictly before m; without such a heading the returned
    first subsection can lie at or beyond the end of the range. -/
theorem c8_first_subsection_amended (hs : List Heading) (H D : Heading) (m : Nat)
    (hsorted : List.Pairwise (fun a b => a.line_number < b.line_number) hs)
    (he : (get_section_range hs H).2 = some m)
    (hD : D ∈ hs) (hD1 : H.line_number < D.line_number) (hD2 : D.line_number < m)
    (hD3 : H.level < D.level) :
    ∃ S, get_first_subsection hs H = some S ∧
      H.line_number < S.line_number ∧ H.level < S.level ∧ S.line_number < m := by
  rcases hff : hs.find?
      (fun h => decide (H.line_number < h.line_number ∧ H.level < h.level)) with _ | S
  · rw [List.find?_eq_none] at hff
    exact absurd (by simp [hD1, hD3]) (hff D hD)
  · have hpS : H.line_number < S.line_number ∧ H.level < S.level := by
      simpa using List.find?_some hff
    have hmin := find?_min_line _ hs hsorted S hff D hD (by simp [hD1, hD3])
    refine ⟨S, ?_, hpS.1, hpS.2, by omega⟩
    simp only [get_first_subsection]
    exact hff

/-- C8 amended witness: a deeper heading on line 2 inside the range ending
    at line 5 forces the first subsection to land inside the range. -/
theorem c8_first_subsection_amended_witness :
    ∃ S, get_first_subsection
        [Heading.mk 1 1 ['T'], Heading.mk 2 2 ['D'], Heading.mk 5 1 ['E']]
        (Heading.mk 1 1 ['T']) = some S ∧
      (Heading.mk 1 1 ['T']).line_number < S.line_number ∧
      (Heading.mk 1 1 ['T']).level < S.level ∧ S.line_number < 5 :=
  c8_first_subsection_amended _ (Heading.mk 1 1 ['T']) (Heading.mk 2 2 ['D']) 5
    (by simp [List.pairwise_cons]) (by decide) (by decide) (by decide) (by decide) (by decide)

/-! Claims C1 and C2. -/

/-- C1 counterexample: a start index beyond the end index makes the Rust
    slice indexing panic, both in extract_section and in
    extract_section_intro, refuting the claim that the extractors never
    fail on any input. -/
theorem c1_counterexample :
    extract_section ['a', '\n', 'b'] 3 (some 2) = none ∧
    extract_section_intro ['a', '\n', 'b'] (Heading.mk 7 1 []) none none = none := by decide

/-- C1 amended: the extractors return a string whenever the computed slice
    bounds are in range, that is the start index (one less than the start
    line, saturating) is at most the end index and the end index at most
    the line count; outside that range the slice indexing panics, so the
    operations are total only on in-range inputs. -/
theorem c1_extractors_total_in_range (c : List Char) (start : Nat) (stop : Option Nat)
    (H : Heading) (fs : Option Heading) (se : Option Nat)
    (h1 : start - 1 ≤ sliceEnd (rustLines c).length stop)
    (h2 : sliceEnd (rustLines c).length stop ≤ (rustLines c).length)
    (g1 : H.line_number - 1 ≤ introEnd (rustLines c).length fs se)
    (g2 : introEnd (rustLines c).length fs se ≤ (rustLines c).length) :
    (∃ out, extract_section c start stop = some out) ∧
    (∃ out, extract_section_intro c H fs se = some out) := by
  constructor
  · refine ⟨joinNL (((rustLines c).drop (start - 1)).take
      (sliceEnd (rustLines c).length stop - (start - 1))), ?_⟩
    simp only [extract_section]
    rw [if_pos ⟨h1, h2⟩]
  · refine ⟨joinNL (((rustLines c).drop (H.line_number - 1)).take
      (introEnd (rustLines c).length fs se - (H.line_number - 1))), ?_⟩
    simp only [extract_section_intro]
    rw [if_pos ⟨g1, g2⟩]

/-- C1 amended witness at in-range inputs. -/
theorem c1_extractors_total_in_range_witness :
    (∃ out, extract_section ['a', '\n', 'b'] 1 (some 2) = some out) ∧
    (∃ out, extract_section_intro ['a', '\n', 'b'] (Heading.mk 1 1 []) none (some 3) = some out) :=
  c1_extractors_total_in_range ['a', '\n', 'b'] 1 (some 2) (Heading.mk 1 1 []) none (some 3)
    (by decide) (by decide) (by decide) (by decide)

/-- C2 counterexample: with a one-line document, an end of 3 is not
    clamped to the line count (the claim says the result would be the
    whole line) and a start of 3, past the last line, is not treated as
    line 1: both calls hit an out-of-range slice and panic. -/
theorem c2_counterexample :
    extract_section ['a'] 1 (some 3) = none ∧
    extract_section ['a'] 3 none = none := by decide

/-- C2 amended: a start of zero behaves as start 1 (the saturating
    subtraction clamps the start index at 0); when 1 <= start <= end and
    end <= line count + 1 the result is the join of the lines from index
    start - 1 up to end - 1, and with an absent end the join of all lines
    from index start - 1; but an out-of-range end (line count + 2) or an
    out-of-range start (line count + 2, with absent end) is not clamped:
    the slice panics. -/
theorem c2_clamping_amended (c : List Char) (start e : Nat)
    (h0 : 1 ≤ start) (h1 : start ≤ (rustLines c).length + 1)
    (h2 : start ≤ e) (h3 : e ≤ (rustLines c).length + 1) :
    extract_section c 0 (some e) = extract_section c 1 (some e) ∧
    extract_section c start (some ((rustLines c).length + 2)) = none ∧
    extract_section c ((rustLines c).length + 2) none = none ∧
    extract_section c start (some e) =
      some (joinNL (((rustLines c).drop (start - 1)).take (e - start))) ∧
    extract_section c start none =
      some (joinNL ((rustLines c).drop (start - 1))) := by
  refine ⟨?_, ?_, ?_, ?_, ?_⟩
  · norm_num [extract_section]
  · simp only [extract_section, sliceEnd]
    rw [if_neg (by omega)]
  · simp only [extract_section, sliceEnd]
    rw [if_neg (by omega)]
  · simp only [extract_section, sliceEnd]
    rw [if_pos ⟨by omega, by omega⟩]
    have he : e - 1 - (start - 1) = e - start := by omega
    rw [he]
  · simp only [extract_section, sliceEnd]
    rw [if_pos ⟨by omega, Nat.le_refl _⟩]
    have he : (rustLines c).length - (start - 1) = ((rustLines c).drop (start - 1)).length := by
      rw [List.length_drop]
    rw [he, List.take_length]

/-- C2 amended witness on a two-line document. -/
theorem c2_clamping_amended_witness :
    extract_section ['a', '\n', 'b'] 0 (some 2) = extract_section ['a', '\n', 'b'] 1 (some 2) ∧
    extract_section ['a', '\n', 'b'] 1 (some 4) = none ∧
    extract_section ['a', '\n', 'b'] 4 none = none ∧
    extract_section ['a', '\n', 'b'] 1 (some 2) =
      some (joinNL (((rustLines ['a', '\n', 'b']).drop 0).take 1)) ∧
    extract_section ['a', '\n', 'b'] 1 none =
      some (joinNL ((rustLines ['a', '\n', 'b']).drop 0)) :=
  c2_clamping_amended ['a', '\n', 'b'] 1 2 (by decide) (by decide) (by decide) (by decide)

/-! Claim C7. -/

theorem mem_parse_headings_bounds (c : List Char) (h : Heading) (hm : h ∈ parse_headings c) :
    1 ≤ h.line_number ∧ h.line_number ≤ (rustLines c).length := by
  rcases mem_parseHeadingsGo _ _ _ _ hm with ⟨i, hi, h1, h2, h3, h4⟩
  omega

theorem extract_slice_spec (c : List Char) (s k : Nat)
    (hs1 : 1 ≤ s) (hsk : 1 ≤ k) (hk : s - 1 + k ≤ (rustLines c).length) :
    splitNL (joinNL (((rustLines c).drop (s - 1)).take k)) =
      ((rustLines c).drop (s - 1)).take k ∧
    (((rustLines c).drop (s - 1)).take k).length = k := by
  have hlen : (((rustLines c).drop (s - 1)).take k).length = k := by
    rw [List.length_take, List.length_drop]
    omega
  refine ⟨?_, hlen⟩
  apply splitNL_joinNL
  · intro l hl
    exact mem_rustLines_noNL c l (List.drop_subset _ _ (List.take_subset _ _ hl))
  · intro hnil
    rw [hnil] at hlen
    simp at hlen
    omega

/-- C7: for every heading of a document, extracting its computed section
    range and splitting the result at newlines yields exactly the in-range
    block of source lines: end minus start many lines when the end is
    present, line count minus start plus one when absent, each line equal
    to the corresponding terminator-stripped source line. -/
theorem c7_round_trip (c : List Char) (H : Heading) (hm : H ∈ parse_headings c) :
    ∃ out,
      extract_section c (get_section_range (parse_headings c) H).1
        (get_section_range (parse_headings c) H).2 = some out ∧
      splitNL out =
        ((rustLines c).drop (H.line_number - 1)).take
          (((get_section_range (parse_headings c) H).2.getD ((rustLines c).length + 1)) -
            H.line_number) ∧
      (splitNL out).length =
        match (get_section_range (parse_headings c) H).2 with
        | some e => e - H.line_number
        | none => (rustLines c).length - H.line_number + 1 := by
  have hb := mem_parse_headings_bounds c H hm
  have h1eq : (get_section_range (parse_headings c) H).1 = H.line_number := rfl
  rcases hff : (parse_headings c).find? (fun h =>
      decide (H.line_number < h.line_number ∧ h.level ≤ H.level)) with _ | h2
  · have h2eq : (get_section_range (parse_headings c) H).2 = none := by
      simp only [get_section_range, hff, Option.map_none']
    rw [h1eq, h2eq]
    have hspec := extract_slice_spec c H.line_number
      ((rustLines c).length + 1 - H.line_number) hb.1 (by omega) (by omega)
    refine ⟨joinNL (((rustLines c).drop (H.line_number - 1)).take
      ((rustLines c).length + 1 - H.line_number)), ?_, ?_, ?_⟩
    · simp only [extract_section, sliceEnd]
      rw [if_pos ⟨by omega, Nat.le_refl _⟩]
      have he : (rustLines c).length - (H.line_number - 1) =
          (rustLines c).length + 1 - H.line_number := by omega
      rw [he]
    · simp only [Option.getD_none]
      exact hspec.1
    · show (splitNL (joinNL (((rustLines c).drop (H.line_number - 1)).take
        ((rustLines c).length + 1 - H.line_number)))).length =
        (rustLines c).length - H.line_number + 1
      rw [hspec.1, hspec.2]
      omega
  · have hp2 : H.line_number < h2.line_number ∧ h2.level ≤ H.level := by
      simpa using List.find?_some hff
    have hb2 := mem_parse_headings_bounds c h2 (List.mem_of_find?_eq_some hff)
    have h2eq : (get_section_range (parse_headings c) H).2 = some h2.line_number := by
      simp only [get_section_range, hff, Option.map_some']
    rw [h1eq, h2eq]
    have hspec := extract_slice_spec c H.line_number
      (h2.line_number - H.line_number) hb.1 (by omega) (by omega)
    refine ⟨joinNL (((rustLines c).drop (H.line_number - 1)).take
      (h2.line_number - H.line_number)), ?_, ?_, ?_⟩
    · simp only [extract_section, sliceEnd]
      rw [if_pos ⟨by omega, by omega⟩]
      have he : h2.line_number - 1 - (H.line_number - 1) =
          h2.line_number - H.line_number := by omega
      rw [he]
    · simp only [Option.getD_some]
      exact hspec.1
    · show (splitNL (joinNL (((rustLines c).drop (H.line_number - 1)).take
        (h2.line_number - H.line_number)))).length = h2.line_number - H.line_number
      rw [hspec.1]
      exact hspec.2

/-- C7 witness: the single heading of a two-line document extracts to the
    whole document, splitting back into its two lines. -/
theorem c7_round_trip_witness :
    ∃ out,
      extract_section ['#', ' ', 'T', '\n', 'x'] 1 none = some out ∧
      splitNL out = ((rustLines ['#', ' ', 'T', '\n', 'x']).drop 0).take 2 ∧
      (splitNL out).length = 2 :=
  c7_round_trip ['#', ' ', 'T', '\n', 'x'] (Heading.mk 1 1 ['T']) (by decide)
